import Mathlib

/-!
Verification of the legal-move generator core (`src/movegen/piece_type.rs`)
of the Uno-Chess-core repository.

The embedding is shallow: a `BitBoard` is a finite set of the 64 squares,
the external attack-pattern provider (the `magic` module, outside the
sources shown) is an abstract structure of pure functions, the `Board`
snapshot is a read-only structure of the accessors the core consumes, and
each `legals` routine is translated statement by statement, with bitboard
iteration modelled as the ascending list of set squares and the mutable
`MoveList` threaded explicitly.
-/

namespace UnoChess

/-- An integer index 0-63 identifying a board cell. -/
abbrev Square := Fin 64

/-- A 64-bit set of squares, modelled as a finite set. -/
abbrev BitBoard := Finset (Fin 64)

/-- The empty bitboard. -/
def EMPTY : BitBoard := ∅

/-- One of two colors; `Color.not` denotes the opponent. -/
inductive Color
  | white
  | black
deriving DecidableEq

/-- The `!color` operation of the source. -/
def Color.not : Color → Color
  | .white => .black
  | .black => .white

/-- Modelled from the spec: `promotionRank(color)` is the back rank relative
to the moving color (rank 8 for the side moving up, rank 1 for the side
moving down); `Color::to_promotion_board` lives outside the shown sources. -/
def Color.to_promotion_board : Color → BitBoard
  | .white => Finset.univ.filter (fun s : Square => 56 ≤ s.val)
  | .black => Finset.univ.filter (fun s : Square => s.val ≤ 7)

/-- One of {Pawn, Knight, Bishop, Rook, Queen, King}. -/
inductive Piece
  | pawn
  | knight
  | bishop
  | rook
  | queen
  | king
deriving DecidableEq

/-- Castling-rights view consumed from the board: per-side flags and
per-side transit-square sets. -/
structure CastleRights where
  has_kingside : Bool
  has_queenside : Bool
  kingside_squares : Color → BitBoard
  queenside_squares : Color → BitBoard

/-- The read-only board snapshot, exactly the accessors the core consumes:
per-piece-kind and per-color occupancy, combined occupancy, side to move,
checkers set, king squares and the mover's castling rights. -/
structure Board where
  pieces : Piece → BitBoard
  color_combined : Color → BitBoard
  combined : BitBoard
  side_to_move : Color
  checkers : BitBoard
  king_square : Color → Square
  my_castle_rights : CastleRights

/-- The external attack-pattern provider (`crate::magic`): pure functions
from square (and occupancy / color) to the raw reachable-square set. -/
structure Magic where
  get_bishop_moves : Square → BitBoard → BitBoard
  get_rook_moves : Square → BitBoard → BitBoard
  get_knight_moves : Square → BitBoard
  get_king_moves : Square → BitBoard
  pawn_attacks_pattern : Square → Color → BitBoard
  get_pawn_moves : Square → Color → BitBoard → BitBoard

/-- Modelled from the spec: `get_pawn_attacks(src, color, blockers)` of the
external provider is the pawn diagonal-attack pattern for `color` from
`src`, intersected with the supplied occupancy argument ("pawn-attack
pattern intersected with enemy pawns" at the call site of `captures`). -/
def get_pawn_attacks (m : Magic) (src : Square) (color : Color) (blockers : BitBoard) : BitBoard :=
  m.pawn_attacks_pattern src color ∩ blockers

/-- One output record: `SquareAndBitBoard::new(sq, bb, promotion)`. -/
structure SquareAndBitBoard where
  square : Square
  bitboard : BitBoard
  promotion : Bool

instance : DecidableEq SquareAndBitBoard := fun a b =>
  decidable_of_iff
    (a.square = b.square ∧ a.bitboard = b.bitboard ∧ a.promotion = b.promotion)
    (by cases a; cases b; simp)

/-- The append-only output sequence. -/
abbrev MoveList := List SquareAndBitBoard

/-- `MoveList::push_unchecked`: append one record at the end. -/
def push_unchecked (ml : MoveList) (r : SquareAndBitBoard) : MoveList :=
  ml ++ [r]

/-- Bitboard iteration: the set squares of `b` in ascending index order. -/
def bb_list (b : BitBoard) : List Square :=
  (List.finRange 64).filter (fun s => decide (s ∈ b))

/-- Modelled from the spec: `Square::uright`, the one-step right neighbor
(square index plus one); defined outside the shown sources. -/
def uright (s : Square) : Square := s + 1

/-- Modelled from the spec: `Square::uleft`, the one-step left neighbor
(square index minus one); defined outside the shown sources. -/
def uleft (s : Square) : Square := s - 1

/-- The six `PieceType` implementations of the source. -/
inductive PieceVariant
  | pawnT
  | knightT
  | bishopT
  | rookT
  | queenT
  | kingT
deriving DecidableEq

/-- `into_piece` of each implementation. -/
def into_piece : PieceVariant → Piece
  | .pawnT => .pawn
  | .knightT => .knight
  | .bishopT => .bishop
  | .rookT => .rook
  | .queenT => .queen
  | .kingT => .king

/-- Each implementation's `pseudo_legals`: the raw movement pattern from
`src` given occupancy, intersected with the caller-supplied `mask`. -/
def pseudo_legals (m : Magic) (v : PieceVariant) (src : Square) (color : Color)
    (combined : BitBoard) (mask : BitBoard) : BitBoard :=
  match v with
  | .pawnT => m.get_pawn_moves src color combined ∩ mask
  | .bishopT => m.get_bishop_moves src combined ∩ mask
  | .knightT => m.get_knight_moves src ∩ mask
  | .rookT => m.get_rook_moves src combined ∩ mask
  | .queenT => symmDiff (m.get_rook_moves src combined) (m.get_bishop_moves src combined) ∩ mask
  | .kingT => m.get_king_moves src ∩ mask

/-- The shared `PieceType::captures` default body. -/
def captures (m : Magic) (src : Square) (color : Color) (combined : BitBoard)
    (board : Board) : BitBoard :=
  ((m.get_bishop_moves src combined ∩ (board.pieces .bishop ∪ board.pieces .queen))
    ∪ (m.get_rook_moves src combined ∩ (board.pieces .rook ∪ board.pieces .queen))
    ∪ get_pawn_attacks m src color (board.pieces .pawn)
    ∪ (m.get_knight_moves src ∩ board.pieces .knight))
    ∩ board.color_combined color.not

/-- `Self::captures` as resolved for each implementation: no implementation
overrides the trait default, so every variant uses the shared body. -/
def capturesOf (m : Magic) (v : PieceVariant) (src : Square) (color : Color)
    (combined : BitBoard) (board : Board) : BitBoard :=
  match v with
  | _ => captures m src color combined board

/-- The trait-default `PieceType::legals` body (used by Bishop, Knight,
Rook and Queen): iterate the friendly squares of this piece kind, compute
`pseudo_legals | captures` (intersected with `checkers` in the in-check
instantiation) and push a record whenever the set is non-empty. -/
def default_legals (m : Magic) (v : PieceVariant) (in_check : Bool)
    (movelist : MoveList) (board : Board) (mask : BitBoard) : MoveList :=
  let combined := board.combined
  let color := board.side_to_move
  let pieces := board.pieces (into_piece v) ∩ board.color_combined color
  let checkers := board.checkers
  if in_check then
    (bb_list pieces).foldl (fun ml src =>
      let moves := (pseudo_legals m v src color combined mask
          ∪ capturesOf m v src color combined board) ∩ checkers
      if moves ≠ EMPTY then push_unchecked ml ⟨src, moves, false⟩ else ml) movelist
  else
    (bb_list pieces).foldl (fun ml src =>
      let moves := pseudo_legals m v src color combined mask
          ∪ capturesOf m v src color combined board
      if moves ≠ EMPTY then push_unchecked ml ⟨src, moves, false⟩ else ml) movelist

/-- The per-source push block of `PawnType::legals`: split `moves` at the
promotion board and push the non-empty parts. -/
def pawn_src_push (src : Square) (moves promotions : BitBoard) (ml : MoveList) : MoveList :=
  let normal_moves := moves \ promotions
  let promotion_moves := moves ∩ promotions
  let ml1 := if normal_moves ≠ EMPTY then push_unchecked ml ⟨src, normal_moves, false⟩ else ml
  if promotion_moves ≠ EMPTY then push_unchecked ml1 ⟨src, promotion_moves, true⟩ else ml1

/-- `PawnType::legals`: the default body with the push replaced by the
promotion split of `pawn_src_push`. -/
def pawn_legals (m : Magic) (in_check : Bool) (movelist : MoveList)
    (board : Board) (mask : BitBoard) : MoveList :=
  let combined := board.combined
  let color := board.side_to_move
  let pieces := board.pieces (into_piece .pawnT) ∩ board.color_combined color
  let checkers := board.checkers
  if in_check then
    (bb_list pieces).foldl (fun ml src =>
      pawn_src_push src
        ((pseudo_legals m .pawnT src color combined mask
          ∪ capturesOf m .pawnT src color combined board) ∩ checkers)
        color.to_promotion_board ml) movelist
  else
    (bb_list pieces).foldl (fun ml src =>
      pawn_src_push src
        (pseudo_legals m .pawnT src color combined mask
          ∪ capturesOf m .pawnT src color combined board)
        color.to_promotion_board ml) movelist

/-- `KingType::legal_king_move`: is the one-step king pattern from `dest`
disjoint from the opposing color's occupancy? -/
def legal_king_move (m : Magic) (board : Board) (dest : Square) : Bool :=
  decide (m.get_king_moves dest ∩ board.color_combined board.side_to_move.not = EMPTY)

/-- The king-safety filter loop of `KingType::legals`: for each `dest` of
the iterated copy, toggle `dest` out of `moves` when it is not legal. -/
def king_filter_loop (m : Magic) (board : Board) (l : List Square) (moves : BitBoard) : BitBoard :=
  l.foldl (fun mv dest =>
    if ¬ legal_king_move m board dest then symmDiff mv {dest} else mv) moves

/-- The raw king candidates: `pseudo_legals(ksq) | captures(ksq)`. -/
def king_candidates (m : Magic) (board : Board) (mask : BitBoard) : BitBoard :=
  pseudo_legals m .kingT (board.king_square board.side_to_move) board.side_to_move
      board.combined mask
    ∪ capturesOf m .kingT (board.king_square board.side_to_move) board.side_to_move
      board.combined board

/-- The king candidates after the king-safety filter loop. -/
def king_filtered (m : Magic) (board : Board) (mask : BitBoard) : BitBoard :=
  king_filter_loop m board (bb_list (king_candidates m board mask)) (king_candidates m board mask)

/-- The final move set of `KingType::legals`: the filtered candidates,
with the castling toggles applied in the not-in-check instantiation. -/
def king_final (m : Magic) (in_check : Bool) (board : Board) (mask : BitBoard) : BitBoard :=
  if in_check then king_filtered m board mask
  else
    let ksq := board.king_square board.side_to_move
    let mv1 := king_filtered m board mask
    let mv2 :=
      if board.my_castle_rights.has_kingside = true
          ∧ board.combined ∩ board.my_castle_rights.kingside_squares board.side_to_move = EMPTY then
        if legal_king_move m board (uright ksq) = true
            ∧ legal_king_move m board (uright (uright ksq)) = true then
          symmDiff mv1 {uright (uright ksq)}
        else mv1
      else mv1
    if board.my_castle_rights.has_queenside = true
        ∧ board.combined ∩ board.my_castle_rights.queenside_squares board.side_to_move = EMPTY then
      if legal_king_move m board (uleft ksq) = true
          ∧ legal_king_move m board (uleft (uleft ksq)) = true then
        symmDiff mv2 {uleft (uleft ksq)}
      else mv2
    else mv2

/-- `KingType::legals`: push one record for the king square when the final
move set is non-empty. -/
def king_legals (m : Magic) (in_check : Bool) (movelist : MoveList)
    (board : Board) (mask : BitBoard) : MoveList :=
  if king_final m in_check board mask ≠ EMPTY then
    push_unchecked movelist
      ⟨board.king_square board.side_to_move, king_final m in_check board mask, false⟩
  else movelist

/-- Trait-method resolution of `legals`: Pawn and King override the
default body, the other four kinds use it. -/
def legals (m : Magic) (v : PieceVariant) (in_check : Bool) (movelist : MoveList)
    (board : Board) (mask : BitBoard) : MoveList :=
  match v with
  | .pawnT => pawn_legals m in_check movelist board mask
  | .kingT => king_legals m in_check movelist board mask
  | _ => default_legals m v in_check movelist board mask

/-- The records a single `legals` call appends (its effect on an empty
output sequence). -/
def legal_records (m : Magic) (v : PieceVariant) (in_check : Bool)
    (board : Board) (mask : BitBoard) : MoveList :=
  legals m v in_check [] board mask

/-! ## A concrete attack-pattern provider

The `magic` module is an external collaborator of this core, so its tables
are modelled from the spec's description of the patterns ("pure functions
of (square, [occupancy], [color]) returning a BitBoard for each of: pawn
forward moves, pawn diagonal attacks, knight moves, bishop moves, rook
moves, king moves"): standard chess movement geometry over the 0-63 index
grid (file = index mod 8, rank = index div 8). -/

/-- The file (column) of a square. -/
def file_of (s : Square) : Int := (s.val % 8 : Nat)

/-- The rank (row) of a square. -/
def rank_of (s : Square) : Int := (s.val / 8 : Nat)

/-- The square at file `f`, rank `r`, when both are on the board. -/
def mk_square (f r : Int) : Option Square :=
  if h : 0 ≤ f ∧ f < 8 ∧ 0 ≤ r ∧ r < 8 then
    some ⟨(r * 8 + f).toNat, by omega⟩
  else none

/-- The squares reached from `s` by the given file/rank offsets. -/
def offset_squares (s : Square) (offsets : List (Int × Int)) : BitBoard :=
  offsets.foldl (fun acc o =>
    match mk_square (file_of s + o.1) (rank_of s + o.2) with
    | some sq => insert sq acc
    | none => acc) ∅

/-- Modelled from the spec: walk one sliding ray, stopping at (and
including) the first occupied square. -/
def ray_walk (occ : BitBoard) (df dr : Int) : Nat → Int → Int → BitBoard
  | 0, _, _ => ∅
  | fuel + 1, f, r =>
    match mk_square f r with
    | none => ∅
    | some sq =>
      if sq ∈ occ then {sq}
      else insert sq (ray_walk occ df dr fuel (f + df) (r + dr))

/-- One sliding ray from `s` in direction `(df, dr)` given occupancy. -/
def slide (s : Square) (occ : BitBoard) (df dr : Int) : BitBoard :=
  ray_walk occ df dr 7 (file_of s + df) (rank_of s + dr)

/-- Modelled from the spec: the straight-slider (rook) pattern. -/
def rook_pattern (s : Square) (occ : BitBoard) : BitBoard :=
  slide s occ 1 0 ∪ slide s occ (-1) 0 ∪ slide s occ 0 1 ∪ slide s occ 0 (-1)

/-- Modelled from the spec: the diagonal-slider (bishop) pattern. -/
def bishop_pattern (s : Square) (occ : BitBoard) : BitBoard :=
  slide s occ 1 1 ∪ slide s occ 1 (-1) ∪ slide s occ (-1) 1 ∪ slide s occ (-1) (-1)

/-- Modelled from the spec: the knight pattern. -/
def knight_pattern (s : Square) : BitBoard :=
  offset_squares s [(1, 2), (2, 1), (2, -1), (1, -2), (-1, -2), (-2, -1), (-2, 1), (-1, 2)]

/-- Modelled from the spec: the one-step king movement pattern. -/
def king_step_pattern (s : Square) : BitBoard :=
  offset_squares s [(1, 0), (1, 1), (0, 1), (-1, 1), (-1, 0), (-1, -1), (0, -1), (1, -1)]

/-- Modelled from the spec: the pawn diagonal-attack pattern. -/
def pawn_attack_pattern (s : Square) : Color → BitBoard
  | .white => offset_squares s [(-1, 1), (1, 1)]
  | .black => offset_squares s [(-1, -1), (1, -1)]

/-- Modelled from the spec: pawn forward moves — the single push when
unoccupied, plus the double push from the starting rank when both squares
are unoccupied. -/
def pawn_move_pattern (s : Square) (color : Color) (occ : BitBoard) : BitBoard :=
  let dir : Int := match color with | .white => 1 | .black => -1
  let start : Int := match color with | .white => 1 | .black => 6
  match mk_square (file_of s) (rank_of s + dir) with
  | none => ∅
  | some one =>
    if one ∈ occ then ∅
    else if rank_of s = start then
      match mk_square (file_of s) (rank_of s + 2 * dir) with
      | none => {one}
      | some two => if two ∈ occ then {one} else {one, two}
    else {one}

/-- The concrete provider assembled from the spec-modelled patterns. -/
def spec_magic : Magic where
  get_bishop_moves := bishop_pattern
  get_rook_moves := rook_pattern
  get_knight_moves := knight_pattern
  get_king_moves := king_step_pattern
  pawn_attacks_pattern := fun s c => pawn_attack_pattern s c
  get_pawn_moves := fun s c occ => pawn_move_pattern s c occ

/-! ## Concrete board snapshots used by witnesses and counterexamples -/

/-- Castling rights with everything revoked. -/
def no_rights : CastleRights where
  has_kingside := false
  has_queenside := false
  kingside_squares := fun _ => ∅
  queenside_squares := fun _ => ∅

/-- White king on e1 (4), black king on h8 (63), black pawn on c2 (10),
white to move, not in check, no castling rights.  The black pawn stands
one king-step away from d1/d2 while the black king is far away. -/
def board0 : Board where
  pieces := fun p =>
    match p with
    | .king => {4, 63}
    | .pawn => {10}
    | _ => ∅
  color_combined := fun c =>
    match c with
    | .white => {4}
    | .black => {10, 63}
  combined := {4, 10, 63}
  side_to_move := .white
  checkers := ∅
  king_square := fun c => match c with | .white => 4 | .black => 63
  my_castle_rights := no_rights

/-- Kingside-castling rights for white with the conventional f1/g1 (5/6)
transit squares. -/
def rights1 : CastleRights where
  has_kingside := true
  has_queenside := false
  kingside_squares := fun _ => {5, 6}
  queenside_squares := fun _ => ∅

/-- White king on e1 (4), black king on e8 (60), white to move, not in
check, kingside castling rights retained and f1/g1 empty. -/
def board1 : Board where
  pieces := fun p =>
    match p with
    | .king => {4, 60}
    | _ => ∅
  color_combined := fun c =>
    match c with
    | .white => {4}
    | .black => {60}
  combined := {4, 60}
  side_to_move := .white
  checkers := ∅
  king_square := fun c => match c with | .white => 4 | .black => 60
  my_castle_rights := rights1

/-! ## Spec-level record characterizations and helper lemmas -/

/-- The per-source move set of the default (and pawn) `legals` body:
`pseudo_legals | captures`, intersected with `checkers` when in check. -/
def default_moves (m : Magic) (v : PieceVariant) (in_check : Bool) (board : Board)
    (mask : BitBoard) (src : Square) : BitBoard :=
  let mv := pseudo_legals m v src board.side_to_move board.combined mask
    ∪ capturesOf m v src board.side_to_move board.combined board
  if in_check then mv ∩ board.checkers else mv

/-- The records the default `legals` body appends: one `(src, moves, false)`
record per friendly source square with a non-empty move set. -/
def records_default (m : Magic) (v : PieceVariant) (in_check : Bool)
    (board : Board) (mask : BitBoard) : MoveList :=
  (bb_list (board.pieces (into_piece v) ∩ board.color_combined board.side_to_move)).flatMap
    (fun src =>
      if default_moves m v in_check board mask src ≠ EMPTY
      then [⟨src, default_moves m v in_check board mask src, false⟩] else [])

/-- The records `pawn_src_push` appends for one source square. -/
def pawn_src_records (src : Square) (moves promotions : BitBoard) : MoveList :=
  (if moves \ promotions ≠ EMPTY then [⟨src, moves \ promotions, false⟩] else [])
    ++ (if moves ∩ promotions ≠ EMPTY then [⟨src, moves ∩ promotions, true⟩] else [])

/-- The records `PawnType::legals` appends. -/
def records_pawn (m : Magic) (in_check : Bool) (board : Board) (mask : BitBoard) : MoveList :=
  (bb_list (board.pieces (into_piece .pawnT) ∩ board.color_combined board.side_to_move)).flatMap
    (fun src =>
      pawn_src_records src (default_moves m .pawnT in_check board mask src)
        board.side_to_move.to_promotion_board)

/-- The records `KingType::legals` appends. -/
def records_king (m : Magic) (in_check : Bool) (board : Board) (mask : BitBoard) : MoveList :=
  if king_final m in_check board mask ≠ EMPTY
  then [⟨board.king_square board.side_to_move, king_final m in_check board mask, false⟩]
  else []

lemma foldl_push_eq (f : MoveList → Square → MoveList) (g : Square → MoveList)
    (hf : ∀ ml s, f ml s = ml ++ g s) :
    ∀ (l : List Square) (ml : MoveList), l.foldl f ml = ml ++ l.flatMap g := by
  intro l
  induction l with
  | nil => intro ml; simp
  | cons a l ih => intro ml; simp [hf, ih]

lemma default_legals_eq (m : Magic) (v : PieceVariant) (t : Bool) (ml : MoveList)
    (board : Board) (mask : BitBoard) :
    default_legals m v t ml board mask = ml ++ records_default m v t board mask := by
  cases t <;>
  · unfold default_legals records_default
    refine foldl_push_eq _ _ (fun ml s => ?_) _ ml
    simp only [default_moves, push_unchecked]
    split <;> simp_all

lemma pawn_src_push_eq (src : Square) (moves promotions : BitBoard) (ml : MoveList) :
    pawn_src_push src moves promotions ml = ml ++ pawn_src_records src moves promotions := by
  unfold pawn_src_push pawn_src_records push_unchecked
  by_cases h1 : moves \ promotions = EMPTY <;> by_cases h2 : moves ∩ promotions = EMPTY <;>
    simp [h1, h2]

lemma pawn_legals_eq (m : Magic) (t : Bool) (ml : MoveList)
    (board : Board) (mask : BitBoard) :
    pawn_legals m t ml board mask = ml ++ records_pawn m t board mask := by
  cases t <;>
  · unfold pawn_legals records_pawn
    refine foldl_push_eq _ _ (fun ml s => ?_) _ ml
    simp only [default_moves]
    exact pawn_src_push_eq ..

lemma king_legals_eq (m : Magic) (t : Bool) (ml : MoveList)
    (board : Board) (mask : BitBoard) :
    king_legals m t ml board mask = ml ++ records_king m t board mask := by
  unfold king_legals records_king push_unchecked
  split <;> simp

lemma legals_eq (m : Magic) (v : PieceVariant) (t : Bool) (ml : MoveList)
    (board : Board) (mask : BitBoard) :
    legals m v t ml board mask = ml ++ legal_records m v t board mask := by
  cases v <;>
    simp only [legals, legal_records, default_legals_eq, pawn_legals_eq, king_legals_eq,
      List.nil_append]

lemma mem_bb_list {b : BitBoard} {s : Square} : s ∈ bb_list b ↔ s ∈ b := by
  simp [bb_list, List.mem_filter]

lemma nodup_bb_list (b : BitBoard) : (bb_list b).Nodup :=
  List.Nodup.filter _ (List.nodup_finRange 64)

lemma length_bb_list (b : BitBoard) : (bb_list b).length = b.card := by
  have hnd := nodup_bb_list b
  have : (bb_list b).toFinset = b := by
    ext x
    simp [List.mem_toFinset, mem_bb_list]
  calc (bb_list b).length = (bb_list b).toFinset.card :=
        (List.toFinset_card_of_nodup hnd).symm
    _ = b.card := by rw [this]

lemma symmDiff_singleton_of_mem {a : Square} {s : BitBoard} (h : a ∈ s) :
    symmDiff s {a} = s \ {a} := by
  ext x
  simp only [Finset.mem_symmDiff, Finset.mem_sdiff, Finset.mem_singleton]
  constructor
  · rintro (⟨hx, hxa⟩ | ⟨rfl, hxs⟩)
    · exact ⟨hx, hxa⟩
    · exact absurd h hxs
  · rintro ⟨hx, hxa⟩
    exact Or.inl ⟨hx, hxa⟩

lemma king_filter_loop_eq (m : Magic) (board : Board) :
    ∀ (l : List Square), l.Nodup → ∀ (acc : BitBoard), (∀ d, d ∈ l → d ∈ acc) →
      king_filter_loop m board l acc
        = acc.filter (fun x => x ∉ l ∨ legal_king_move m board x = true) := by
  intro l
  induction l with
  | nil =>
    intro _ acc _
    simp [king_filter_loop]
  | cons a l ih =>
    intro hnd acc hmem
    have hal : a ∉ l := (List.nodup_cons.mp hnd).1
    have hln : l.Nodup := (List.nodup_cons.mp hnd).2
    have hstep : king_filter_loop m board (a :: l) acc
        = king_filter_loop m board l
            (if ¬ legal_king_move m board a then symmDiff acc {a} else acc) := rfl
    by_cases hp : legal_king_move m board a = true
    · rw [hstep, if_neg (not_not_intro hp),
        ih hln acc (fun d hd => hmem d (List.mem_cons_of_mem a hd))]
      apply Finset.filter_congr
      intro x _
      by_cases hxa : x = a <;> simp [hxa, hp, List.mem_cons]
    · have ha : a ∈ acc := hmem a (List.mem_cons_self a l)
      rw [hstep, if_pos hp, symmDiff_singleton_of_mem ha,
        ih hln (acc \ {a}) (fun d hd => by
          simp only [Finset.mem_sdiff, Finset.mem_singleton]
          exact ⟨hmem d (List.mem_cons_of_mem a hd), fun e => hal (e ▸ hd)⟩)]
      ext x
      by_cases hxa : x = a
      · subst hxa
        simp [hp, List.mem_cons]
      · simp only [Finset.mem_filter, Finset.mem_sdiff, Finset.mem_singleton, List.mem_cons]
        constructor
        · rintro ⟨⟨hx, _⟩, h2⟩
          refine ⟨hx, ?_⟩
          rcases h2 with h2 | h2
          · exact Or.inl (fun hc => by
              rcases hc with hc | hc
              · exact hxa hc
              · exact h2 hc)
          · exact Or.inr h2
        · rintro ⟨hx, h2⟩
          refine ⟨⟨hx, hxa⟩, ?_⟩
          rcases h2 with h2 | h2
          · exact Or.inl (fun hc => h2 (Or.inr hc))
          · exact Or.inr h2

lemma king_filtered_eq (m : Magic) (board : Board) (mask : BitBoard) :
    king_filtered m board mask
      = (king_candidates m board mask).filter
          (fun d => legal_king_move m board d = true) := by
  unfold king_filtered
  rw [king_filter_loop_eq m board _ (nodup_bb_list _) _ (fun d hd => mem_bb_list.mp hd)]
  apply Finset.filter_congr
  intro x hx
  simp [mem_bb_list, hx]

/-- The records of one `legals` call, per trait-method resolution. -/
lemma legal_records_dispatch (m : Magic) (v : PieceVariant) (t : Bool)
    (board : Board) (mask : BitBoard) :
    legal_records m v t board mask =
      match v with
      | .pawnT => records_pawn m t board mask
      | .kingT => records_king m t board mask
      | _ => records_default m v t board mask := by
  cases v <;>
    simp only [legal_records, legals, default_legals_eq, pawn_legals_eq, king_legals_eq,
      List.nil_append]

lemma records_default_nonempty {m : Magic} {v : PieceVariant} {t : Bool}
    {board : Board} {mask : BitBoard} {r : SquareAndBitBoard}
    (hr : r ∈ records_default m v t board mask) : r.bitboard ≠ EMPTY := by
  unfold records_default at hr
  rw [List.mem_flatMap] at hr
  obtain ⟨src, _, h⟩ := hr
  by_cases hc : default_moves m v t board mask src ≠ EMPTY
  · rw [if_pos hc, List.mem_singleton] at h
    subst h
    exact hc
  · rw [if_neg hc] at h
    exact absurd h (List.not_mem_nil r)

lemma pawn_src_records_nonempty {src : Square} {moves promotions : BitBoard}
    {r : SquareAndBitBoard} (hr : r ∈ pawn_src_records src moves promotions) :
    r.bitboard ≠ EMPTY := by
  unfold pawn_src_records at hr
  rcases List.mem_append.mp hr with h | h
  · by_cases hc : moves \ promotions ≠ EMPTY
    · rw [if_pos hc, List.mem_singleton] at h
      subst h
      exact hc
    · rw [if_neg hc] at h
      exact absurd h (List.not_mem_nil r)
  · by_cases hc : moves ∩ promotions ≠ EMPTY
    · rw [if_pos hc, List.mem_singleton] at h
      subst h
      exact hc
    · rw [if_neg hc] at h
      exact absurd h (List.not_mem_nil r)

lemma records_pawn_nonempty {m : Magic} {t : Bool} {board : Board} {mask : BitBoard}
    {r : SquareAndBitBoard} (hr : r ∈ records_pawn m t board mask) : r.bitboard ≠ EMPTY := by
  unfold records_pawn at hr
  rw [List.mem_flatMap] at hr
  obtain ⟨src, _, h⟩ := hr
  exact pawn_src_records_nonempty h

lemma records_king_nonempty {m : Magic} {t : Bool} {board : Board} {mask : BitBoard}
    {r : SquareAndBitBoard} (hr : r ∈ records_king m t board mask) : r.bitboard ≠ EMPTY := by
  unfold records_king at hr
  by_cases hc : king_final m t board mask ≠ EMPTY
  · rw [if_pos hc, List.mem_singleton] at hr
    subst hr
    exact hc
  · rw [if_neg hc] at hr
    exact absurd hr (List.not_mem_nil r)

lemma length_flatMap_le (l : List Square) (g : Square → MoveList) (n : Nat)
    (h : ∀ x, (g x).length ≤ n) : (l.flatMap g).length ≤ n * l.length := by
  induction l with
  | nil => simp
  | cons a l ih =>
    rw [List.flatMap_cons, List.length_append, List.length_cons, Nat.mul_succ]
    have := h a
    omega

lemma length_records_default_le (m : Magic) (v : PieceVariant) (t : Bool)
    (board : Board) (mask : BitBoard) :
    (records_default m v t board mask).length
      ≤ (board.pieces (into_piece v) ∩ board.color_combined board.side_to_move).card := by
  unfold records_default
  have h := length_flatMap_le
    (bb_list (board.pieces (into_piece v) ∩ board.color_combined board.side_to_move))
    (fun src =>
      if default_moves m v t board mask src ≠ EMPTY
      then [⟨src, default_moves m v t board mask src, false⟩] else []) 1
    (fun x => by dsimp only; split <;> simp)
  rw [Nat.one_mul, length_bb_list] at h
  exact h

lemma length_records_pawn_le (m : Magic) (t : Bool) (board : Board) (mask : BitBoard) :
    (records_pawn m t board mask).length
      ≤ 2 * (board.pieces (into_piece .pawnT) ∩ board.color_combined board.side_to_move).card := by
  unfold records_pawn
  have h := length_flatMap_le
    (bb_list (board.pieces (into_piece .pawnT) ∩ board.color_combined board.side_to_move))
    (fun src =>
      pawn_src_records src (default_moves m .pawnT t board mask src)
        board.side_to_move.to_promotion_board) 2
    (fun x => by
      unfold pawn_src_records
      rw [List.length_append]
      have h1 : (if default_moves m .pawnT t board mask x \ board.side_to_move.to_promotion_board
            ≠ EMPTY
          then [(⟨x, default_moves m .pawnT t board mask x
              \ board.side_to_move.to_promotion_board, false⟩ : SquareAndBitBoard)]
          else []).length ≤ 1 := by split <;> simp
      have h2 : (if default_moves m .pawnT t board mask x ∩ board.side_to_move.to_promotion_board
            ≠ EMPTY
          then [(⟨x, default_moves m .pawnT t board mask x
              ∩ board.side_to_move.to_promotion_board, true⟩ : SquareAndBitBoard)]
          else []).length ≤ 1 := by split <;> simp
      omega)
  rw [length_bb_list] at h
  exact h

/-- A board with a white knight on b1 and a black pawn on d2, used to
instantiate theorems with hypotheses at a non-trivial input. -/
def board2 : Board where
  pieces := fun p =>
    match p with
    | .knight => {1}
    | .pawn => {11}
    | _ => ∅
  color_combined := fun c =>
    match c with
    | .white => {1}
    | .black => {11}
  combined := {1, 11}
  side_to_move := .white
  checkers := ∅
  king_square := fun _ => 0
  my_castle_rights := no_rights

/-! ## Claims -/

/-- Claim C2: for every piece-kind implementation and every input, `captures`
returns the same set — the union of the diagonal-slider pattern
intersected with enemy bishops/queens, the straight-slider pattern
intersected with enemy rooks/queens, the pawn-attack pattern for the
moving color intersected with enemy pawns, and the knight pattern
intersected with enemy knights, all intersected with the opponent's
occupancy; the routine is not specialized to the variant's own movement
pattern. -/
theorem claim_c2_captures_uniform (m : Magic) (v w : PieceVariant) (src : Square)
    (color : Color) (combined : BitBoard) (board : Board) :
    capturesOf m v src color combined board = capturesOf m w src color combined board ∧
    capturesOf m v src color combined board =
      ((m.get_bishop_moves src combined
          ∩ ((board.pieces .bishop ∪ board.pieces .queen) ∩ board.color_combined color.not))
        ∪ (m.get_rook_moves src combined
          ∩ ((board.pieces .rook ∪ board.pieces .queen) ∩ board.color_combined color.not))
        ∪ (m.pawn_attacks_pattern src color
          ∩ (board.pieces .pawn ∩ board.color_combined color.not))
        ∪ (m.get_knight_moves src ∩ (board.pieces .knight ∩ board.color_combined color.not)))
        ∩ board.color_combined color.not := by
  have hcap : ∀ u : PieceVariant,
      capturesOf m u src color combined board = captures m src color combined board := by
    intro u
    cases u <;> rfl
  refine ⟨(hcap v).trans (hcap w).symm, ?_⟩
  rw [hcap v]
  unfold captures get_pawn_attacks
  ext x
  simp only [Finset.mem_inter, Finset.mem_union]
  tauto

/-- Claim C7: every record any piece kind's `legals` appends has a non-empty
destination bitboard. -/
theorem claim_c7_records_nonempty (m : Magic) (v : PieceVariant) (t : Bool)
    (board : Board) (mask : BitBoard) (r : SquareAndBitBoard)
    (hr : r ∈ legal_records m v t board mask) : r.bitboard ≠ EMPTY := by
  rw [legal_records_dispatch] at hr
  cases v
  case pawnT => exact records_pawn_nonempty hr
  case kingT => exact records_king_nonempty hr
  all_goals exact records_default_nonempty hr

/-- Claim C7 witness: the king record of `board1` is produced and non-empty. -/
theorem claim_c7_witness :
    (⟨4, {3, 5, 6, 11, 12, 13}, false⟩ : SquareAndBitBoard)
        ∈ legal_records spec_magic .kingT false board1 Finset.univ ∧
    (⟨4, {3, 5, 6, 11, 12, 13}, false⟩ : SquareAndBitBoard).bitboard ≠ EMPTY :=
  ⟨by decide,
    claim_c7_records_nonempty spec_magic .kingT false board1 Finset.univ _ (by decide)⟩

/-- Claim C8: one `legals` call appends a bounded number of records — at most
one per friendly source square for the default body, at most two per
friendly pawn for the pawn body, and at most one in total for the king
body — so a caller that reserves the documented capacity is never
overrun. -/
theorem claim_c8_bounded_appends (m : Magic) (t : Bool) (board : Board) (mask : BitBoard) :
    (legal_records m .bishopT t board mask).length
        ≤ (board.pieces .bishop ∩ board.color_combined board.side_to_move).card ∧
    (legal_records m .knightT t board mask).length
        ≤ (board.pieces .knight ∩ board.color_combined board.side_to_move).card ∧
    (legal_records m .rookT t board mask).length
        ≤ (board.pieces .rook ∩ board.color_combined board.side_to_move).card ∧
    (legal_records m .queenT t board mask).length
        ≤ (board.pieces .queen ∩ board.color_combined board.side_to_move).card ∧
    (legal_records m .pawnT t board mask).length
        ≤ 2 * (board.pieces .pawn ∩ board.color_combined board.side_to_move).card ∧
    (legal_records m .kingT t board mask).length ≤ 1 := by
  refine ⟨?_, ?_, ?_, ?_, ?_, ?_⟩
  · rw [legal_records_dispatch]
    exact length_records_default_le m .bishopT t board mask
  · rw [legal_records_dispatch]
    exact length_records_default_le m .knightT t board mask
  · rw [legal_records_dispatch]
    exact length_records_default_le m .rookT t board mask
  · rw [legal_records_dispatch]
    exact length_records_default_le m .queenT t board mask
  · rw [legal_records_dispatch]
    exact length_records_pawn_le m t board mask
  · rw [legal_records_dispatch]
    show (records_king m t board mask).length ≤ 1
    unfold records_king
    split <;> simp

/-- Claim C9: `legals` is deterministic and stateless — its effect is to append
a sequence of records that depends only on the board snapshot, mask and
check-type tag, and a second invocation with the same inputs appends the
bit-identical sequence again. -/
theorem claim_c9_deterministic_append (m : Magic) (v : PieceVariant) (t : Bool)
    (ml : MoveList) (board : Board) (mask : BitBoard) :
    legals m v t ml board mask = ml ++ legal_records m v t board mask ∧
    legals m v t (legals m v t ml board mask) board mask
      = ml ++ legal_records m v t board mask ++ legal_records m v t board mask := by
  refine ⟨legals_eq m v t ml board mask, ?_⟩
  rw [legals_eq m v t (legals m v t ml board mask) board mask, legals_eq m v t ml board mask]

/-- Claim C10: `QueenType::pseudo_legals` is the symmetric difference of the
rook and bishop patterns intersected with the mask; when the two patterns
are disjoint this equals their union intersected with the mask. -/
theorem claim_c10_queen_symmdiff (m : Magic) (src : Square) (color : Color)
    (combined mask : BitBoard)
    (h : m.get_rook_moves src combined ∩ m.get_bishop_moves src combined = EMPTY) :
    pseudo_legals m .queenT src color combined mask
      = (m.get_rook_moves src combined ∪ m.get_bishop_moves src combined) ∩ mask := by
  unfold pseudo_legals
  have hu : symmDiff (m.get_rook_moves src combined) (m.get_bishop_moves src combined)
      = m.get_rook_moves src combined ∪ m.get_bishop_moves src combined := by
    ext x
    simp only [Finset.mem_symmDiff, Finset.mem_union]
    have hx : x ∉ m.get_rook_moves src combined ∨ x ∉ m.get_bishop_moves src combined := by
      by_contra hc
      push_neg at hc
      have hmem : x ∈ m.get_rook_moves src combined ∩ m.get_bishop_moves src combined :=
        Finset.mem_inter.mpr ⟨hc.1, hc.2⟩
      rw [h] at hmem
      exact absurd hmem (Finset.not_mem_empty x)
    tauto
  rw [hu]

/-- Claim C1 counterexample: on `board0` (white king e1, black king h8, black
pawn c2), the candidate destination d2 (index 11) is excluded by the
king-safety filter although the one-step king pattern from d2 does not
intersect the enemy king's square — the filter tests the whole enemy
occupancy, so the adjacent enemy pawn causes the exclusion. -/
theorem claim_c1_counterexample :
    (11 : Square) ∈ king_candidates spec_magic board0 Finset.univ ∧
    (11 : Square) ∉ king_filtered spec_magic board0 Finset.univ ∧
    spec_magic.get_king_moves 11
        ∩ {board0.king_square board0.side_to_move.not} = EMPTY := by
  decide

/-- Claim C1 (amended): a candidate king destination `d` is excluded by the
king-safety filter (equivalently, fails `legal_king_move`) if and only if
the one-step king movement pattern from `d` intersects the enemy color's
combined occupancy — any enemy piece within one king step of `d` filters
it, not only the enemy king; attackers further away never do. -/
theorem claim_c1_king_filter_amended (m : Magic) (board : Board) (mask : BitBoard)
    (d : Square) (hd : d ∈ king_candidates m board mask) :
    d ∉ king_filtered m board mask
      ↔ m.get_king_moves d ∩ board.color_combined board.side_to_move.not ≠ EMPTY := by
  rw [king_filtered_eq, Finset.mem_filter]
  unfold legal_king_move
  simp [hd]

/-- Claim C1 amended-theorem witness at the concrete destination e2 on
`board0`. -/
theorem claim_c1_witness :
    (12 : Square) ∈ king_candidates spec_magic board0 Finset.univ ∧
    ((12 : Square) ∉ king_filtered spec_magic board0 Finset.univ
      ↔ spec_magic.get_king_moves 12
          ∩ board0.color_combined board0.side_to_move.not ≠ EMPTY) :=
  ⟨by decide,
    claim_c1_king_filter_amended spec_magic board0 Finset.univ 12 (by decide)⟩

lemma mem_cond_symmDiff {A : BitBoard} {x d : Square} {c : Prop} [Decidable c]
    (h : d ∈ (if c then symmDiff A {x} else A)) : d ∈ A ∨ (c ∧ d = x) := by
  split at h
  · rename_i hc
    rcases Finset.mem_symmDiff.mp h with ⟨hA, _⟩ | ⟨hx, _⟩
    · exact Or.inl hA
    · exact Or.inr ⟨hc, Finset.mem_singleton.mp hx⟩
  · exact Or.inl h

/-- Claim C3: a castling destination (two steps right or left of the king
square) enters the king's move set only under the not-in-check
instantiation with the corresponding rights retained, the rights' transit
squares unoccupied in the combined occupancy, and both the middle and the
destination square passing the king-safety filter; the in-check
instantiation never evaluates the castling branch. -/
theorem claim_c3_castling_gate (m : Magic) (board : Board) (mask : BitBoard) (d : Square)
    (hin : d ∈ king_final m false board mask)
    (hout : d ∉ king_filtered m board mask) :
    king_final m true board mask = king_filtered m board mask ∧
    ((d = uright (uright (board.king_square board.side_to_move))
        ∧ board.my_castle_rights.has_kingside = true
        ∧ board.combined ∩ board.my_castle_rights.kingside_squares board.side_to_move = EMPTY
        ∧ legal_king_move m board (uright (board.king_square board.side_to_move)) = true
        ∧ legal_king_move m board (uright (uright (board.king_square board.side_to_move))) = true)
      ∨ (d = uleft (uleft (board.king_square board.side_to_move))
        ∧ board.my_castle_rights.has_queenside = true
        ∧ board.combined ∩ board.my_castle_rights.queenside_squares board.side_to_move = EMPTY
        ∧ legal_king_move m board (uleft (board.king_square board.side_to_move)) = true
        ∧ legal_king_move m board (uleft (uleft (board.king_square board.side_to_move))) = true)) := by
  refine ⟨rfl, ?_⟩
  have hform : king_final m false board mask =
      (if (board.my_castle_rights.has_queenside = true
            ∧ board.combined ∩ board.my_castle_rights.queenside_squares board.side_to_move
              = EMPTY)
          ∧ (legal_king_move m board (uleft (board.king_square board.side_to_move)) = true
            ∧ legal_king_move m board
              (uleft (uleft (board.king_square board.side_to_move))) = true)
        then symmDiff
          (if (board.my_castle_rights.has_kingside = true
                ∧ board.combined ∩ board.my_castle_rights.kingside_squares board.side_to_move
                  = EMPTY)
              ∧ (legal_king_move m board (uright (board.king_square board.side_to_move)) = true
                ∧ legal_king_move m board
                  (uright (uright (board.king_square board.side_to_move))) = true)
            then symmDiff (king_filtered m board mask)
              {uright (uright (board.king_square board.side_to_move))}
            else king_filtered m board mask)
          {uleft (uleft (board.king_square board.side_to_move))}
        else
          (if (board.my_castle_rights.has_kingside = true
                ∧ board.combined ∩ board.my_castle_rights.kingside_squares board.side_to_move
                  = EMPTY)
              ∧ (legal_king_move m board (uright (board.king_square board.side_to_move)) = true
                ∧ legal_king_move m board
                  (uright (uright (board.king_square board.side_to_move))) = true)
            then symmDiff (king_filtered m board mask)
              {uright (uright (board.king_square board.side_to_move))}
            else king_filtered m board mask)) := by
    unfold king_final
    rw [if_neg (fun hff => Bool.noConfusion hff)]
    by_cases hK : board.my_castle_rights.has_kingside = true
        ∧ board.combined ∩ board.my_castle_rights.kingside_squares board.side_to_move = EMPTY
    <;> by_cases hKL :
        legal_king_move m board (uright (board.king_square board.side_to_move)) = true
        ∧ legal_king_move m board
          (uright (uright (board.king_square board.side_to_move))) = true
    <;> by_cases hQ : board.my_castle_rights.has_queenside = true
        ∧ board.combined ∩ board.my_castle_rights.queenside_squares board.side_to_move = EMPTY
    <;> by_cases hQL :
        legal_king_move m board (uleft (board.king_square board.side_to_move)) = true
        ∧ legal_king_move m board
          (uleft (uleft (board.king_square board.side_to_move))) = true
    <;> simp [hK, hKL, hQ, hQL]
  rw [hform] at hin
  rcases mem_cond_symmDiff hin with h2 | ⟨hQc, hdq⟩
  · rcases mem_cond_symmDiff h2 with h3 | ⟨hKc, hdk⟩
    · exact absurd h3 hout
    · exact Or.inl ⟨hdk, hKc.1.1, hKc.1.2, hKc.2.1, hKc.2.2⟩
  · exact Or.inr ⟨hdq, hQc.1.1, hQc.1.2, hQc.2.1, hQc.2.2⟩

/-- Claim C3 witness: on `board1` the kingside castling destination g1 (6) is
added by the castling branch and all gating conditions hold there. -/
theorem claim_c3_witness :
    (6 : Square) ∈ king_final spec_magic false board1 Finset.univ ∧
    (6 : Square) ∉ king_filtered spec_magic board1 Finset.univ ∧
    (king_final spec_magic true board1 Finset.univ = king_filtered spec_magic board1 Finset.univ ∧
    (((6 : Square) = uright (uright (board1.king_square board1.side_to_move))
        ∧ board1.my_castle_rights.has_kingside = true
        ∧ board1.combined ∩ board1.my_castle_rights.kingside_squares board1.side_to_move = EMPTY
        ∧ legal_king_move spec_magic board1
            (uright (board1.king_square board1.side_to_move)) = true
        ∧ legal_king_move spec_magic board1
            (uright (uright (board1.king_square board1.side_to_move))) = true)
      ∨ ((6 : Square) = uleft (uleft (board1.king_square board1.side_to_move))
        ∧ board1.my_castle_rights.has_queenside = true
        ∧ board1.combined ∩ board1.my_castle_rights.queenside_squares board1.side_to_move = EMPTY
        ∧ legal_king_move spec_magic board1
            (uleft (board1.king_square board1.side_to_move)) = true
        ∧ legal_king_move spec_magic board1
            (uleft (uleft (board1.king_square board1.side_to_move))) = true))) :=
  ⟨by decide, by decide,
    claim_c3_castling_gate spec_magic board1 Finset.univ 6 (by decide) (by decide)⟩

/-- Claim C4: for every pawn source square, the move set is partitioned by the
moving color's promotion rank — the normal and promotion parts are
disjoint, their union is the unsplit move set, the promotion-flagged
record's destinations all lie on the promotion rank and the
normal-flagged record's destinations never do, and each record is
appended exactly when its part is non-empty. -/
theorem claim_c4_pawn_promotion_partition (m : Magic) (t : Bool) (board : Board)
    (mask : BitBoard) (src : Square) (ml : MoveList) :
    (default_moves m .pawnT t board mask src \ board.side_to_move.to_promotion_board)
        ∩ (default_moves m .pawnT t board mask src ∩ board.side_to_move.to_promotion_board)
      = EMPTY ∧
    (default_moves m .pawnT t board mask src \ board.side_to_move.to_promotion_board)
        ∪ (default_moves m .pawnT t board mask src ∩ board.side_to_move.to_promotion_board)
      = default_moves m .pawnT t board mask src ∧
    default_moves m .pawnT t board mask src ∩ board.side_to_move.to_promotion_board
      ⊆ board.side_to_move.to_promotion_board ∧
    (default_moves m .pawnT t board mask src \ board.side_to_move.to_promotion_board)
        ∩ board.side_to_move.to_promotion_board = EMPTY ∧
    pawn_src_records src (default_moves m .pawnT t board mask src)
        board.side_to_move.to_promotion_board
      = (if default_moves m .pawnT t board mask src \ board.side_to_move.to_promotion_board
            = EMPTY
          then []
          else [⟨src, default_moves m .pawnT t board mask src
              \ board.side_to_move.to_promotion_board, false⟩])
        ++ (if default_moves m .pawnT t board mask src ∩ board.side_to_move.to_promotion_board
            = EMPTY
          then []
          else [⟨src, default_moves m .pawnT t board mask src
              ∩ board.side_to_move.to_promotion_board, true⟩]) ∧
    pawn_legals m t ml board mask
      = ml ++ (bb_list (board.pieces (into_piece .pawnT)
            ∩ board.color_combined board.side_to_move)).flatMap
          (fun s => pawn_src_records s (default_moves m .pawnT t board mask s)
            board.side_to_move.to_promotion_board) := by
  refine ⟨?_, ?_, ?_, ?_, ?_, ?_⟩
  · ext x
    simp only [Finset.mem_inter, Finset.mem_sdiff, EMPTY, Finset.not_mem_empty, iff_false]
    tauto
  · ext x
    simp only [Finset.mem_union, Finset.mem_inter, Finset.mem_sdiff]
    tauto
  · exact Finset.inter_subset_right
  · ext x
    simp only [Finset.mem_inter, Finset.mem_sdiff, EMPTY, Finset.not_mem_empty, iff_false]
    tauto
  · unfold pawn_src_records
    congr 1
    · by_cases h : default_moves m .pawnT t board mask src
          \ board.side_to_move.to_promotion_board = EMPTY <;> simp [h]
    · by_cases h : default_moves m .pawnT t board mask src
          ∩ board.side_to_move.to_promotion_board = EMPTY <;> simp [h]
  · rw [pawn_legals_eq]
    rfl

/-- Claim C5: Bishop, Knight, Rook and Queen use the default `legals` body:
per friendly source square the move set is `pseudo_legals | captures`
(intersected with the checkers set in the in-check instantiation) and one
`(src, moves, promotion=false)` record is appended iff that set is
non-empty; each kind's `pseudo_legals` is its raw pattern intersected
with the caller-supplied mask. -/
theorem claim_c5_default_algorithm (m : Magic) (v : PieceVariant) (t : Bool)
    (board : Board) (mask : BitBoard) (ml : MoveList)
    (src : Square) (c : Color) (comb : BitBoard)
    (hv : v = .bishopT ∨ v = .knightT ∨ v = .rookT ∨ v = .queenT) :
    legals m v t ml board mask = ml ++ records_default m v t board mask ∧
    pseudo_legals m .bishopT src c comb mask = m.get_bishop_moves src comb ∩ mask ∧
    pseudo_legals m .knightT src c comb mask = m.get_knight_moves src ∩ mask ∧
    pseudo_legals m .rookT src c comb mask = m.get_rook_moves src comb ∩ mask ∧
    pseudo_legals m .queenT src c comb mask
      = symmDiff (m.get_rook_moves src comb) (m.get_bishop_moves src comb) ∩ mask := by
  refine ⟨?_, rfl, rfl, rfl, rfl⟩
  rcases hv with rfl | rfl | rfl | rfl <;>
    simpa [legals] using default_legals_eq m _ t ml board mask

/-- Claim C5 witness at the knight variant on `board2`. -/
theorem claim_c5_witness :
    (PieceVariant.knightT = PieceVariant.bishopT ∨ PieceVariant.knightT = PieceVariant.knightT
      ∨ PieceVariant.knightT = PieceVariant.rookT
      ∨ PieceVariant.knightT = PieceVariant.queenT) ∧
    (legals spec_magic .knightT false [] board2 Finset.univ
        = [] ++ records_default spec_magic .knightT false board2 Finset.univ ∧
    pseudo_legals spec_magic .bishopT 0 Color.white EMPTY Finset.univ
        = spec_magic.get_bishop_moves 0 EMPTY ∩ Finset.univ ∧
    pseudo_legals spec_magic .knightT 0 Color.white EMPTY Finset.univ
        = spec_magic.get_knight_moves 0 ∩ Finset.univ ∧
    pseudo_legals spec_magic .rookT 0 Color.white EMPTY Finset.univ
        = spec_magic.get_rook_moves 0 EMPTY ∩ Finset.univ ∧
    pseudo_legals spec_magic .queenT 0 Color.white EMPTY Finset.univ
        = symmDiff (spec_magic.get_rook_moves 0 EMPTY) (spec_magic.get_bishop_moves 0 EMPTY)
          ∩ Finset.univ) :=
  ⟨Or.inr (Or.inl rfl),
    claim_c5_default_algorithm spec_magic .knightT false board2 Finset.univ [] 0 Color.white
      EMPTY (Or.inr (Or.inl rfl))⟩

lemma flatMap_congr {g1 g2 : Square → MoveList} (l : List Square) (h : ∀ x, g1 x = g2 x) :
    l.flatMap g1 = l.flatMap g2 := by
  induction l <;> simp [*]

lemma filterMap_flatMap (l : List Square) (g : Square → MoveList)
    (f : SquareAndBitBoard → Option SquareAndBitBoard) :
    (l.flatMap g).filterMap f = l.flatMap (fun x => (g x).filterMap f) := by
  induction l with
  | nil => simp
  | cons a l ih => simp [List.filterMap_append, ih]

lemma inter_sdiff_right_comm (a c p : BitBoard) : (a ∩ c) \ p = (a \ p) ∩ c := by
  ext x
  simp only [Finset.mem_inter, Finset.mem_sdiff]
  tauto

lemma inter_inter_right_comm (a c p : BitBoard) : (a ∩ c) ∩ p = (a ∩ p) ∩ c := by
  ext x
  simp only [Finset.mem_inter]
  tauto

lemma if_singleton_restrict (src : Square) (b C : BitBoard) (p : Bool) :
    (if b ∩ C ≠ EMPTY then [(⟨src, b ∩ C, p⟩ : SquareAndBitBoard)] else [])
      = (if b ≠ EMPTY then [(⟨src, b, p⟩ : SquareAndBitBoard)] else []).filterMap
          (fun r => if r.bitboard ∩ C = EMPTY then none
            else some ⟨r.square, r.bitboard ∩ C, r.promotion⟩) := by
  by_cases h : b = EMPTY
  · rw [h]
    simp [EMPTY]
  · rw [if_pos h]
    by_cases h2 : b ∩ C = EMPTY <;>
      simp [h2, List.filterMap_cons]

lemma default_moves_true_eq (m : Magic) (v : PieceVariant) (board : Board)
    (mask : BitBoard) (src : Square) :
    default_moves m v true board mask src
      = default_moves m v false board mask src ∩ board.checkers := rfl

lemma records_default_restrict (m : Magic) (v : PieceVariant) (board : Board)
    (mask : BitBoard) :
    records_default m v true board mask
      = (records_default m v false board mask).filterMap
          (fun r => if r.bitboard ∩ board.checkers = EMPTY then none
            else some ⟨r.square, r.bitboard ∩ board.checkers, r.promotion⟩) := by
  unfold records_default
  rw [filterMap_flatMap]
  refine flatMap_congr _ (fun src => ?_)
  rw [default_moves_true_eq]
  exact if_singleton_restrict src _ _ false

lemma pawn_src_records_restrict (src : Square) (mv P C : BitBoard) :
    pawn_src_records src (mv ∩ C) P
      = (pawn_src_records src mv P).filterMap
          (fun r => if r.bitboard ∩ C = EMPTY then none
            else some ⟨r.square, r.bitboard ∩ C, r.promotion⟩) := by
  unfold pawn_src_records
  rw [List.filterMap_append]
  congr 1
  · rw [inter_sdiff_right_comm]
    exact if_singleton_restrict src _ _ false
  · rw [inter_inter_right_comm]
    exact if_singleton_restrict src _ _ true

lemma records_pawn_restrict (m : Magic) (board : Board) (mask : BitBoard) :
    records_pawn m true board mask
      = (records_pawn m false board mask).filterMap
          (fun r => if r.bitboard ∩ board.checkers = EMPTY then none
            else some ⟨r.square, r.bitboard ∩ board.checkers, r.promotion⟩) := by
  unfold records_pawn
  rw [filterMap_flatMap]
  refine flatMap_congr _ (fun src => ?_)
  rw [default_moves_true_eq]
  exact pawn_src_records_restrict src _ _ _

lemma legal_records_pawnT (m : Magic) (t : Bool) (board : Board) (mask : BitBoard) :
    legal_records m .pawnT t board mask = records_pawn m t board mask :=
  legal_records_dispatch m .pawnT t board mask

lemma legal_records_default_of (m : Magic) (v : PieceVariant) (t : Bool)
    (board : Board) (mask : BitBoard) (hv : v ≠ .pawnT) (hk : v ≠ .kingT) :
    legal_records m v t board mask = records_default m v t board mask := by
  cases v
  case pawnT => exact absurd rfl hv
  case kingT => exact absurd rfl hk
  all_goals exact legal_records_dispatch m _ t board mask

/-- Claim C6: for every piece kind using the default or pawn body, the in-check
instantiation equals the not-in-check instantiation with each record's
destination set intersected with the board's checkers set, records whose
intersection is empty being dropped. -/
theorem claim_c6_check_restriction (m : Magic) (v : PieceVariant) (board : Board)
    (mask : BitBoard) (hv : v ≠ .kingT) :
    legal_records m v true board mask
      = (legal_records m v false board mask).filterMap
          (fun r => if r.bitboard ∩ board.checkers = EMPTY then none
            else some ⟨r.square, r.bitboard ∩ board.checkers, r.promotion⟩) := by
  by_cases hp : v = .pawnT
  · subst hp
    rw [legal_records_pawnT, legal_records_pawnT]
    exact records_pawn_restrict m board mask
  · rw [legal_records_default_of m v true board mask hp hv,
      legal_records_default_of m v false board mask hp hv]
    exact records_default_restrict m v board mask

/-- Claim C6 witness at the knight variant on `board2`. -/
theorem claim_c6_witness :
    PieceVariant.knightT ≠ PieceVariant.kingT ∧
    legal_records spec_magic .knightT true board2 Finset.univ
      = (legal_records spec_magic .knightT false board2 Finset.univ).filterMap
          (fun r => if r.bitboard ∩ board2.checkers = EMPTY then none
            else some ⟨r.square, r.bitboard ∩ board2.checkers, r.promotion⟩) :=
  ⟨by decide,
    claim_c6_check_restriction spec_magic .knightT board2 Finset.univ (by decide)⟩

/-- Claim C10 witness: the rook and bishop patterns from a1 on an empty board
are disjoint, and the queen pseudo-legals equal their union. -/
theorem claim_c10_witness :
    spec_magic.get_rook_moves 0 EMPTY ∩ spec_magic.get_bishop_moves 0 EMPTY = EMPTY ∧
    pseudo_legals spec_magic .queenT 0 Color.white EMPTY Finset.univ
      = (spec_magic.get_rook_moves 0 EMPTY ∪ spec_magic.get_bishop_moves 0 EMPTY)
        ∩ Finset.univ :=
  ⟨by decide,
    claim_c10_queen_symmdiff spec_magic 0 Color.white EMPTY Finset.univ (by decide)⟩

end UnoChess
